import Mathlib

/-!
Shallow embedding of the speaker-attribution and transcript-merging engine
of src/conversation_maker.py, together with theorems settling the claims
about it.  Python floats are modelled as rationals, Python strings as lists
of characters, Python dicts with string keys as association lists.
-/

/-- Python strings are modelled as lists of characters. -/
abbrev PyStr := List Char

/-- Whitespace characters removed by Python's str.strip() on the strings
that occur in this program. -/
def isSpace (c : Char) : Bool :=
  c = ' ' || c = '\t' || c = '\n' || c = '\r'

/-- Python str.strip(): remove leading and trailing whitespace. -/
def pyStrip (s : PyStr) : PyStr :=
  ((s.dropWhile isSpace).reverse.dropWhile isSpace).reverse

/-- A transcribed segment (JSON keys start, end, text).  The key end is
modelled by the field stop because end is a Lean keyword. -/
structure Seg where
  start : ℚ
  stop : ℚ
  text : PyStr
  deriving DecidableEq

/-- A diarization turn (keys start, end, speaker). -/
structure Turn where
  start : ℚ
  stop : ℚ
  speaker : PyStr
  deriving DecidableEq

/-- An assigned (and also a merged) segment: keys start, end, speaker, text. -/
structure ASeg where
  start : ℚ
  stop : ℚ
  speaker : PyStr
  text : PyStr
  deriving DecidableEq

/-- overlap from conversation_maker.py, line 44. -/
def overlap (a_start a_end b_start b_end : ℚ) : ℚ :=
  max 0 (min a_end b_end - max a_start b_start)

/-- Overlap of a turn with a segment's bounds. -/
def ovl (ws we : ℚ) (t : Turn) : ℚ := overlap ws we t.start t.stop

/-- The inner scan of assign_speakers (lines 58-64): fold over the candidate
turns keeping the label of the turn with strictly maximal overlap seen so far
(best_lbl, best_ov). -/
def scanBest (ws we : ℚ) : List Turn → Option PyStr × ℚ → Option PyStr × ℚ
  | [], acc => acc
  | t :: ts, acc =>
      scanBest ws we ts (if ovl ws we t > acc.2 then (some t.speaker, ovl ws we t) else acc)

/-- Python falsy or: best_lbl or "UNKNOWN" (line 67); an empty string is
falsy, so both None and the empty label give the default. -/
def pyOr (lbl : Option PyStr) (dflt : PyStr) : PyStr :=
  match lbl with
  | none => dflt
  | some s => if s = [] then dflt else s

/-- Loop body of assign_speakers (lines 52-69).  The monotone cursor j into
diar_turns is represented by the suffix of diar_turns that starts at j: the
while loop at line 56 advancing j becomes dropWhile, and the scan at lines
59-64 runs over the takeWhile prefix of that suffix. -/
def assignGo : List Seg → List Turn → List ASeg
  | [], _ => []
  | seg :: rest, turns =>
      let turns2 := turns.dropWhile fun t => decide (t.stop < seg.start)
      let cands := turns2.takeWhile fun t => decide (t.start < seg.stop)
      { start := seg.start, stop := seg.stop,
        speaker := pyOr (scanBest seg.start seg.stop cands (none, 0)).1 "UNKNOWN".toList,
        text := pyStrip seg.text } :: assignGo rest turns2

/-- assign_speakers from conversation_maker.py, lines 48-70. -/
def assign_speakers (whisper_segs : List Seg) (diar_turns : List Turn) : List ASeg :=
  assignGo whisper_segs diar_turns

/-- merge_consecutive's loop (lines 77-84): the accumulator last is the open
segment merged[-1] that the Python loop mutates in place. -/
def mergeGo (max_gap : ℚ) : ASeg → List ASeg → List ASeg
  | last, [] => [last]
  | last, seg :: rest =>
      if seg.speaker = last.speaker ∧ seg.start - last.stop ≤ max_gap then
        mergeGo max_gap
          { last with stop := seg.stop, text := pyStrip (last.text ++ ' ' :: seg.text) } rest
      else last :: mergeGo max_gap seg rest

/-- merge_consecutive from conversation_maker.py, lines 73-85 (the source's
default for max_gap is 0.5). -/
def merge_consecutive (assigned : List ASeg) (max_gap : ℚ) : List ASeg :=
  match assigned with
  | [] => []
  | a :: rest => mergeGo max_gap a rest

/-- Python dict lookup mapping.get(key) on a dict modelled as an association
list (keys unique in an actual dict; first match wins). -/
def pyGet : List (PyStr × PyStr) → PyStr → Option PyStr
  | [], _ => none
  | kv :: m, key => if kv.1 = key then some kv.2 else pyGet m key

/-- apply_speaker_map from conversation_maker.py, lines 101-110, with the
mapping already loaded from JSON: spk = mapping.get(orig, orig), and the
falsy test spk if spk else orig keeps the original on an empty replacement. -/
def apply_speaker_map (merged : List ASeg) (mapping : List (PyStr × PyStr)) : List ASeg :=
  merged.map fun seg =>
    let spk := (pyGet mapping seg.speaker).getD seg.speaker
    { seg with speaker := if spk = [] then seg.speaker else spk }

/-- Decimal digit character, as produced by Python's %d formatting. -/
def digitChar (d : ℕ) : Char :=
  if d = 0 then '0' else if d = 1 then '1' else if d = 2 then '2'
  else if d = 3 then '3' else if d = 4 then '4' else if d = 5 then '5'
  else if d = 6 then '6' else if d = 7 then '7' else if d = 8 then '8' else '9'

/-- Decimal digits of a natural number, most significant first; fuel-based so
that kernel reduction works (fuel n + 1 always suffices). -/
def natCharsAux : ℕ → ℕ → PyStr
  | 0, _ => []
  | fuel + 1, n =>
      if n < 10 then [digitChar n]
      else natCharsAux fuel (n / 10) ++ [digitChar (n % 10)]

/-- Python str(n) / "%d" % n for a natural number. -/
def natChars (n : ℕ) : PyStr := natCharsAux (n + 1) n

/-- Python str(i) for an integer. -/
def intChars (i : ℤ) : PyStr :=
  if i < 0 then '-' :: natChars i.natAbs else natChars i.toNat

/-- Python "%02d" % n: zero-pad to width two. -/
def pad2 (n : ℕ) : PyStr := if n < 10 then '0' :: natChars n else natChars n

/-- Python round() on a rational: round half to even (banker's rounding),
via the floor num // den of the value. -/
def pyRound (q : ℚ) : ℤ :=
  let f : ℤ := q.num.fdiv q.den
  let r : ℚ := q - f
  if r < 1 / 2 then f
  else if r > 1 / 2 then f + 1
  else if f % 2 = 0 then f else f + 1

/-- Python str(timedelta(seconds=n)) for an integral number of seconds:
D day(s), H:MM:SS with the day part present only when nonzero, hours
unpadded, minutes and seconds zero-padded (datetime.timedelta.__str__,
with days/seconds normalized so that 0 <= seconds < 86400). -/
def tdString (n : ℤ) : PyStr :=
  let days := n.fdiv 86400
  let rem := (n - 86400 * days).toNat
  let ss := rem % 60
  let mm := rem / 60 % 60
  let hh := rem / 60 / 60
  let base := natChars hh ++ ':' :: pad2 mm ++ ':' :: pad2 ss
  if days = 0 then base
  else intChars days ++ " day".toList ++ (if days.natAbs = 1 then [] else ['s']) ++
    ", ".toList ++ base

/-- Python s.split(sep) for the single-character separator, used by hms
with sep = colon. -/
def splitColon : PyStr → List PyStr
  | [] => [[]]
  | c :: cs =>
      if c = ':' then [] :: splitColon cs
      else
        match splitColon cs with
        | [] => [[c]]
        | p :: ps => (c :: p) :: ps

/-- hms from conversation_maker.py, lines 15-20. -/
def hms (seconds : ℚ) : PyStr :=
  let s := tdString (pyRound seconds)
  if (splitColon s).length = 2 then '0' :: ':' :: s else s

/-- write_conversation from conversation_maker.py, lines 87-92, modelled as
the full character content written to the output file. -/
def write_conversation (merged : List ASeg) (include_timestamps : Bool) : PyStr :=
  (merged.map fun seg =>
    let ts := if include_timestamps then '[' :: hms seg.start ++ [']'] else []
    pyStrip (ts ++ ' ' :: seg.speaker ++ ':' :: ' ' :: seg.text) ++ ['\n']).flatten

/-- A raw transcribed-segment dict in which any of the keys start, end, text
may be absent, for the malformed-input analysis. -/
structure RawSeg where
  start : Option ℚ
  stop : Option ℚ
  text : Option PyStr
  deriving DecidableEq

/-- A raw diarization-turn dict in which any of the keys start, end, speaker
may be absent. -/
structure RawTurn where
  start : Option ℚ
  stop : Option ℚ
  speaker : Option PyStr
  deriving DecidableEq

/-- Python dict access d[key]: raises KeyError when the key is absent. -/
def getKey : Option α → Except PyStr α
  | some a => .ok a
  | none => .error "KeyError".toList

/-- The cursor-advancing while loop of assign_speakers (lines 56-57) over raw
turn dicts: reads each turn's end key as the loop condition does. -/
def advanceRaw (ws : ℚ) : List RawTurn → Except PyStr (List RawTurn)
  | [] => .ok []
  | t :: ts => do
      let te ← getKey t.stop
      if te < ws then advanceRaw ws ts else .ok (t :: ts)

/-- The scanning while loop of assign_speakers (lines 58-64) over raw turn
dicts: reads start for the loop condition, start and end for the overlap, and
speaker only when the overlap strictly improves. -/
def scanRaw (ws we : ℚ) : List RawTurn → Option PyStr × ℚ → Except PyStr (Option PyStr × ℚ)
  | [], acc => .ok acc
  | t :: ts, acc => do
      let tb ← getKey t.start
      if tb < we then do
        let te ← getKey t.stop
        let ov := overlap ws we tb te
        if ov > acc.2 then do
          let spk ← getKey t.speaker
          scanRaw ws we ts (some spk, ov)
        else scanRaw ws we ts acc
      else .ok acc

/-- assign_speakers over raw dict inputs, faithful to the order in which the
source reads each key (lines 52-69); a missing key surfaces as KeyError. -/
def assignRawGo : List RawSeg → List RawTurn → Except PyStr (List ASeg)
  | [], _ => .ok []
  | seg :: rest, turns => do
      let ws ← getKey seg.start
      let we ← getKey seg.stop
      let turns2 ← advanceRaw ws turns
      let best ← scanRaw ws we turns2 (none, 0)
      let txt ← getKey seg.text
      let restA ← assignRawGo rest turns2
      .ok ({ start := ws, stop := we, speaker := pyOr best.1 "UNKNOWN".toList,
             text := pyStrip txt } :: restA)

/-- assign_speakers on raw dict inputs. -/
def assign_speakersRaw (segs : List RawSeg) (turns : List RawTurn) : Except PyStr (List ASeg) :=
  assignRawGo segs turns

/-- Specification-side algorithm of claims C1 and C2: for each segment scan
all turns (no cursor) with the same strict-maximum-overlap selection. -/
def assign_speakersNaive (segs : List Seg) (turns : List Turn) : List ASeg :=
  segs.map fun seg =>
    { start := seg.start, stop := seg.stop,
      speaker := pyOr (scanBest seg.start seg.stop turns (none, 0)).1 "UNKNOWN".toList,
      text := pyStrip seg.text }

/-- Specification-side maximal overlap of segment bounds over a turn list
(zero when there are no turns). -/
def maxOverlap (ws we : ℚ) : List Turn → ℚ
  | [] => 0
  | t :: ts => max (ovl ws we t) (maxOverlap ws we ts)

/-- Specification-side selection in the words of claim C1: when some turn has
nonzero overlap, the first turn attaining the maximal overlap wins; when every
overlap is zero the sentinel UNKNOWN results (and so does an empty winning
label, the correction recorded at claim C10). -/
def selectSpeaker (ws we : ℚ) (turns : List Turn) : PyStr :=
  if 0 < maxOverlap ws we turns then
    match turns.find? (fun t => decide (ovl ws we t = maxOverlap ws we turns)) with
    | some t => if t.speaker = [] then "UNKNOWN".toList else t.speaker
    | none => "UNKNOWN".toList
  else "UNKNOWN".toList

/-- Space-joined concatenation of a list of strings (claim C4's invariant). -/
def sjoin : List PyStr → PyStr
  | [] => []
  | [x] => x
  | x :: y :: xs => x ++ ' ' :: sjoin (y :: xs)

/-- Specification-side clock rendering H:MM:SS in the words of claim C9:
hours unpadded, minutes and seconds zero-padded, from the rounded start. -/
def clockChars (q : ℚ) : PyStr :=
  let n := (pyRound q).toNat
  natChars (n / 3600) ++ ':' :: pad2 (n % 3600 / 60) ++ ':' :: pad2 (n % 60)

/-- Specification-side line format of claim C9, including the newline that
ends each written line. -/
def specLine (include_timestamps : Bool) (seg : ASeg) : PyStr :=
  (if include_timestamps then '[' :: clockChars seg.start ++ [']', ' '] else []) ++
    seg.speaker ++ ':' :: ' ' :: seg.text ++ ['\n']

/-! Basic facts about overlap and the best-overlap scan. -/

lemma ovl_nonneg (ws we : ℚ) (t : Turn) : 0 ≤ ovl ws we t :=
  le_max_left 0 _

lemma ovl_zero_of_stop_le (ws we : ℚ) (t : Turn) (h : t.stop ≤ ws) :
    ovl ws we t = 0 := by
  have hle : min we t.stop - max ws t.start ≤ 0 :=
    sub_nonpos.mpr (le_trans (min_le_right _ _) (le_trans h (le_max_left _ _)))
  simpa [ovl, overlap] using max_eq_left hle

lemma ovl_zero_of_le_start (ws we : ℚ) (t : Turn) (h : we ≤ t.start) :
    ovl ws we t = 0 := by
  have hle : min we t.stop - max ws t.start ≤ 0 :=
    sub_nonpos.mpr (le_trans (min_le_left _ _) (le_trans h (le_max_right _ _)))
  simpa [ovl, overlap] using max_eq_left hle

lemma scanBest_append (ws we : ℚ) (xs ys : List Turn) (acc : Option PyStr × ℚ) :
    scanBest ws we (xs ++ ys) acc = scanBest ws we ys (scanBest ws we xs acc) := by
  induction xs generalizing acc with
  | nil => simp [scanBest]
  | cons t ts ih => simp [scanBest, ih]

lemma scanBest_snd_nonneg (ws we : ℚ) (ts : List Turn) (acc : Option PyStr × ℚ)
    (h : 0 ≤ acc.2) : 0 ≤ (scanBest ws we ts acc).2 := by
  induction ts generalizing acc with
  | nil => simpa [scanBest] using h
  | cons t ts ih =>
      rw [scanBest]
      split
      · exact ih _ (ovl_nonneg ws we t)
      · exact ih _ h

lemma scanBest_const (ws we : ℚ) (ts : List Turn) (acc : Option PyStr × ℚ)
    (h : ∀ t ∈ ts, ovl ws we t ≤ acc.2) : scanBest ws we ts acc = acc := by
  induction ts with
  | nil => rfl
  | cons t ts ih =>
      rw [scanBest, if_neg (not_lt.mpr (h t (List.mem_cons_self t ts)))]
      exact ih fun u hu => h u (List.mem_cons_of_mem t hu)

lemma le_maxOverlap (ws we : ℚ) (ts : List Turn) (t : Turn) (h : t ∈ ts) :
    ovl ws we t ≤ maxOverlap ws we ts := by
  induction ts with
  | nil => cases h
  | cons u us ih =>
      rcases List.mem_cons.mp h with h | h
      · rw [h, maxOverlap]; exact le_max_left _ _
      · rw [maxOverlap]; exact le_trans (ih h) (le_max_right _ _)

lemma maxOverlap_nonneg (ws we : ℚ) (ts : List Turn) : 0 ≤ maxOverlap ws we ts := by
  induction ts with
  | nil => simp [maxOverlap]
  | cons t ts ih => rw [maxOverlap]; exact le_trans ih (le_max_right _ _)

lemma maxOverlap_cons (ws we : ℚ) (t : Turn) (ts : List Turn) :
    maxOverlap ws we (t :: ts) = max (ovl ws we t) (maxOverlap ws we ts) := rfl

lemma scanBest_cons (ws we : ℚ) (t : Turn) (ts : List Turn) (acc : Option PyStr × ℚ) :
    scanBest ws we (t :: ts) acc =
      scanBest ws we ts
        (if ovl ws we t > acc.2 then (some t.speaker, ovl ws we t) else acc) := rfl

lemma scanBest_max (ws we : ℚ) (ts : List Turn) (lbl : Option PyStr) (ov : ℚ)
    (h0 : 0 ≤ ov) (h : ov < maxOverlap ws we ts) :
    ∃ t, ts.find? (fun u => decide (ovl ws we u = maxOverlap ws we ts)) = some t ∧
      scanBest ws we ts (lbl, ov) = (some t.speaker, maxOverlap ws we ts) := by
  induction ts generalizing lbl ov with
  | nil => exact absurd (lt_of_le_of_lt h0 h) (by simp [maxOverlap])
  | cons t ts ih =>
      by_cases hM : maxOverlap ws we ts ≤ ovl ws we t
      · have hMeq : maxOverlap ws we (t :: ts) = ovl ws we t := by
          rw [maxOverlap_cons]; exact max_eq_left hM
        have hup : ovl ws we t > ov := by rw [hMeq] at h; exact h
        refine ⟨t, ?_, ?_⟩
        · exact List.find?_cons_of_pos _ (by rw [decide_eq_true_eq]; exact hMeq.symm)
        · rw [scanBest_cons, if_pos hup,
            scanBest_const ws we ts (some t.speaker, ovl ws we t)
              (fun u hu => le_trans (le_maxOverlap ws we ts u hu) hM), hMeq]
      · push_neg at hM
        have hMeq : maxOverlap ws we (t :: ts) = maxOverlap ws we ts := by
          rw [maxOverlap_cons]; exact max_eq_right (le_of_lt hM)
        have hov : ov < maxOverlap ws we ts := by rw [hMeq] at h; exact h
        have hfindneg : ¬(fun u => decide (ovl ws we u = maxOverlap ws we (t :: ts))) t = true := by
          simp only [decide_eq_true_eq, hMeq]
          exact ne_of_lt hM
        have hstep : List.find? (fun u => decide (ovl ws we u = maxOverlap ws we (t :: ts))) (t :: ts) =
            List.find? (fun u => decide (ovl ws we u = maxOverlap ws we (t :: ts))) ts :=
          List.find?_cons_of_neg _ hfindneg
        by_cases hup : ovl ws we t > ov
        · obtain ⟨u, hfind, hscan⟩ :=
            ih (some t.speaker) (ovl ws we t) (ovl_nonneg ws we t) hM
          refine ⟨u, ?_, ?_⟩
          · rw [hstep]
            simp only [hMeq]
            exact hfind
          · rw [scanBest_cons, if_pos hup, hMeq]
            exact hscan
        · obtain ⟨u, hfind, hscan⟩ := ih lbl ov h0 hov
          refine ⟨u, ?_, ?_⟩
          · rw [hstep]
            simp only [hMeq]
            exact hfind
          · rw [scanBest_cons, if_neg hup, hMeq]
            exact hscan

lemma scanBest_all_zero (ws we : ℚ) (ts : List Turn) (h : maxOverlap ws we ts ≤ 0) :
    scanBest ws we ts (none, 0) = (none, 0) :=
  scanBest_const ws we ts _ fun t ht => le_trans (le_maxOverlap ws we ts t ht) h

lemma speaker_select (ws we : ℚ) (turns : List Turn) :
    pyOr (scanBest ws we turns (none, 0)).1 "UNKNOWN".toList =
      selectSpeaker ws we turns := by
  by_cases h : 0 < maxOverlap ws we turns
  · obtain ⟨t, hfind, hscan⟩ := scanBest_max ws we turns none 0 le_rfl h
    rw [hscan, selectSpeaker, if_pos h, hfind, pyOr]
  · rw [scanBest_all_zero ws we turns (not_lt.mp h), selectSpeaker, if_neg h, pyOr]

/-! Equivalence of the cursor-optimized scan with the scan over all turns. -/

lemma pairwise_dropWhile_ge (we : ℚ) (l : List Turn)
    (hl : l.Pairwise fun a b => a.start ≤ b.start) :
    ∀ t ∈ l.dropWhile fun u => decide (u.start < we), we ≤ t.start := by
  induction l with
  | nil => simp
  | cons a l ih =>
      rw [List.pairwise_cons] at hl
      by_cases hp : a.start < we
      · rw [List.dropWhile_cons_of_pos (by rw [decide_eq_true_eq]; exact hp)]
        exact ih hl.2
      · rw [List.dropWhile_cons_of_neg (by rw [decide_eq_true_eq]; exact hp)]
        intro t ht
        rcases List.mem_cons.mp ht with h | h
        · rw [h]; exact not_lt.mp hp
        · exact le_trans (not_lt.mp hp) (hl.1 t h)

lemma scanBest_zero_list (ws we : ℚ) (ts : List Turn) (acc : Option PyStr × ℚ)
    (hz : ∀ t ∈ ts, ovl ws we t = 0) (h : 0 ≤ acc.2) :
    scanBest ws we ts acc = acc :=
  scanBest_const ws we ts acc fun t ht => le_trans (le_of_eq (hz t ht)) h

lemma scanBest_full (ws we : ℚ) (pre cur : List Turn)
    (hpre : ∀ t ∈ pre, t.stop < ws)
    (hcur : cur.Pairwise fun a b => a.start ≤ b.start) :
    scanBest ws we (pre ++ cur) (none, 0) =
      scanBest ws we
        ((cur.dropWhile fun t => decide (t.stop < ws)).takeWhile
          fun t => decide (t.start < we)) (none, 0) := by
  have hsplit1 : cur = (cur.takeWhile fun t => decide (t.stop < ws)) ++
      (cur.dropWhile fun t => decide (t.stop < ws)) :=
    (List.takeWhile_append_dropWhile _ _).symm
  have hsplit2 : (cur.dropWhile fun t => decide (t.stop < ws)) =
      ((cur.dropWhile fun t => decide (t.stop < ws)).takeWhile
        fun t => decide (t.start < we)) ++
      ((cur.dropWhile fun t => decide (t.stop < ws)).dropWhile
        fun t => decide (t.start < we)) :=
    (List.takeWhile_append_dropWhile _ _).symm
  have hpre0 : scanBest ws we pre (none, 0) = (none, 0) :=
    scanBest_zero_list ws we pre _
      (fun t ht => ovl_zero_of_stop_le ws we t (le_of_lt (hpre t ht))) le_rfl
  have htw0 : scanBest ws we (cur.takeWhile fun t => decide (t.stop < ws)) (none, 0) =
      (none, 0) :=
    scanBest_zero_list ws we _ _
      (fun t ht => ovl_zero_of_stop_le ws we t
        (le_of_lt (by
          have := List.mem_takeWhile_imp ht
          rw [decide_eq_true_eq] at this
          exact this)))
      le_rfl
  have hdwpair : (cur.dropWhile fun t => decide (t.stop < ws)).Pairwise
      fun a b => a.start ≤ b.start :=
    hcur.sublist (List.dropWhile_sublist _)
  have hpost0 : ∀ t ∈ ((cur.dropWhile fun t => decide (t.stop < ws)).dropWhile
      fun t => decide (t.start < we)), ovl ws we t = 0 :=
    fun t ht => ovl_zero_of_le_start ws we t (pairwise_dropWhile_ge we _ hdwpair t ht)
  conv_lhs => rw [hsplit1]
  rw [← List.append_assoc, scanBest_append, scanBest_append, hpre0, htw0]
  conv_lhs => rw [hsplit2]
  rw [scanBest_append]
  exact scanBest_zero_list ws we _ _ hpost0
    (scanBest_snd_nonneg ws we _ _ le_rfl)

lemma assignGo_eq_naive : ∀ (segs : List Seg) (pre cur : List Turn),
    segs.Pairwise (fun a b => a.start ≤ b.start) →
    (pre ++ cur).Pairwise (fun a b => a.start ≤ b.start) →
    (∀ t ∈ pre, ∀ s ∈ segs, t.stop < s.start) →
    assignGo segs cur = assign_speakersNaive segs (pre ++ cur)
  | [], pre, cur, _, _, _ => rfl
  | seg :: rest, pre, cur, hsegs, hturns, hpre => by
      rw [List.pairwise_cons] at hsegs
      have hcur : cur.Pairwise fun a b => a.start ≤ b.start :=
        hturns.sublist (List.sublist_append_right pre cur)
      have hscan := scanBest_full seg.start seg.stop pre cur
        (fun t ht => hpre t ht seg (List.mem_cons_self seg rest)) hcur
      have happ : (pre ++ cur.takeWhile fun t => decide (t.stop < seg.start)) ++
          (cur.dropWhile fun t => decide (t.stop < seg.start)) = pre ++ cur := by
        rw [List.append_assoc, List.takeWhile_append_dropWhile]
      have hpre2 : ∀ t ∈ pre ++ cur.takeWhile fun u => decide (u.stop < seg.start),
          ∀ s ∈ rest, t.stop < s.start := by
        intro t ht s hs
        rcases List.mem_append.mp ht with h | h
        · exact hpre t h s (List.mem_cons_of_mem seg hs)
        · have h1 := List.mem_takeWhile_imp h
          rw [decide_eq_true_eq] at h1
          exact lt_of_lt_of_le h1 (hsegs.1 s hs)
      have htail := assignGo_eq_naive rest
        (pre ++ cur.takeWhile fun t => decide (t.stop < seg.start))
        (cur.dropWhile fun t => decide (t.stop < seg.start))
        hsegs.2 (happ ▸ hturns) hpre2
      rw [happ] at htail
      rw [assignGo, assign_speakersNaive, List.map_cons]
      refine congrArg₂ _ ?_ ?_
      · rw [hscan]
      · rw [htail, assign_speakersNaive]

lemma assignGo_pairs : ∀ (segs : List Seg) (turns : List Turn),
    (assignGo segs turns).map (fun a => (a.start, a.stop)) =
      segs.map fun s => (s.start, s.stop)
  | [], _ => rfl
  | seg :: rest, turns => by
      rw [assignGo, List.map_cons, List.map_cons, assignGo_pairs rest]

lemma assignGo_length (segs : List Seg) (turns : List Turn) :
    (assignGo segs turns).length = segs.length := by
  have h := congrArg List.length (assignGo_pairs segs turns)
  simpa using h

lemma speakers_eq_select (segs : List Seg) (turns : List Turn)
    (hs : segs.Pairwise fun a b => a.start ≤ b.start)
    (ht : turns.Pairwise fun a b => a.start ≤ b.start) :
    (assign_speakers segs turns).map (fun a => a.speaker) =
      segs.map fun s => selectSpeaker s.start s.stop turns := by
  have h := assignGo_eq_naive segs [] turns hs (by simpa using ht) (by simp)
  rw [assign_speakers, h, assign_speakersNaive, List.map_map]
  simp only [Function.comp_def, speaker_select, List.nil_append]

/-- Claim C1, counterexample, two defects.  First, a single segment fully
covered by a single turn whose speaker label is the empty string: the turn
has strictly maximal nonzero overlap 1, so the claim as stated says the
segment receives that turn's label, the empty string, but the code reports
UNKNOWN because best_lbl or UNKNOWN treats the empty label as falsy.
Second, with segments out of start order the shared cursor skips a turn that
fully overlaps the later-listed segment, which therefore gets UNKNOWN even
though a turn has maximal overlap 1 with it. -/
theorem C1_counterexample :
    ((assign_speakers [⟨0, 1, "hi".toList⟩] [⟨0, 1, []⟩]).map (fun a => a.speaker) =
        ["UNKNOWN".toList] ∧
      ovl 0 1 ⟨0, 1, []⟩ = 1 ∧ ("UNKNOWN".toList : PyStr) ≠ []) ∧
      ((assign_speakers [⟨2, 3, "x".toList⟩, ⟨0, 1, "y".toList⟩]
          [⟨0, 1, "A".toList⟩]).map (fun a => a.speaker) =
        ["UNKNOWN".toList, "UNKNOWN".toList] ∧
      ovl 0 1 ⟨0, 1, "A".toList⟩ = 1 ∧ ("UNKNOWN".toList : PyStr) ≠ "A".toList) := by
  refine ⟨⟨?_, ?_, by decide⟩, ⟨?_, ?_, by decide⟩⟩
  · norm_num [assign_speakers, assignGo, scanBest, ovl, overlap, pyOr]
  · norm_num [ovl, overlap]
  · norm_num [assign_speakers, assignGo, scanBest, ovl, overlap, pyOr]
  · norm_num [ovl, overlap]

/-- Claim C1 as amended: for segments in non-decreasing start order and turns
sorted by start, assign_speakers gives each segment the label selected by the
claim's rule - the first turn attaining the strictly maximal nonzero overlap
wins and an all-zero-overlap candidate set yields UNKNOWN - except that a
winning empty-string label is also reported as UNKNOWN. -/
theorem C1_assign_max_overlap (segs : List Seg) (turns : List Turn)
    (hs : segs.Pairwise fun a b => a.start ≤ b.start)
    (ht : turns.Pairwise fun a b => a.start ≤ b.start) :
    (assign_speakers segs turns).map (fun a => a.speaker) =
      segs.map fun s => selectSpeaker s.start s.stop turns :=
  speakers_eq_select segs turns hs ht

/-- Claim C1, witness at a concrete sorted input. -/
theorem C1_assign_max_overlap_witness :
    List.Pairwise (fun a b : Seg => a.start ≤ b.start)
        [⟨0, 2, "hi".toList⟩, ⟨2, 4, "there".toList⟩] ∧
      List.Pairwise (fun a b : Turn => a.start ≤ b.start) [⟨0, 4, "A".toList⟩] ∧
      (assign_speakers [⟨0, 2, "hi".toList⟩, ⟨2, 4, "there".toList⟩]
          [⟨0, 4, "A".toList⟩]).map (fun a => a.speaker) =
        ([⟨0, 2, "hi".toList⟩, ⟨2, 4, "there".toList⟩] : List Seg).map
          fun s => selectSpeaker s.start s.stop [⟨0, 4, "A".toList⟩] :=
  ⟨by decide, by decide,
    C1_assign_max_overlap _ _ (by decide) (by decide)⟩

/-- Claim C2: on segments in non-decreasing start order and turns sorted by
start, the cursor-optimized assignment equals the naive algorithm that scans
all turns for every segment with the same strict-maximum-overlap selection. -/
theorem C2_cursor_refines_naive (segs : List Seg) (turns : List Turn)
    (hs : segs.Pairwise fun a b => a.start ≤ b.start)
    (ht : turns.Pairwise fun a b => a.start ≤ b.start) :
    assign_speakers segs turns = assign_speakersNaive segs turns := by
  have h := assignGo_eq_naive segs [] turns hs (by simpa using ht) (by simp)
  rw [assign_speakers, h, List.nil_append]

/-- Claim C2, witness at a concrete sorted input. -/
theorem C2_cursor_refines_naive_witness :
    List.Pairwise (fun a b : Seg => a.start ≤ b.start)
        [⟨0, 2, "hi".toList⟩, ⟨5, 7, "bye".toList⟩] ∧
      List.Pairwise (fun a b : Turn => a.start ≤ b.start)
        [⟨0, 2, "A".toList⟩, ⟨5, 7, "B".toList⟩] ∧
      assign_speakers [⟨0, 2, "hi".toList⟩, ⟨5, 7, "bye".toList⟩]
          [⟨0, 2, "A".toList⟩, ⟨5, 7, "B".toList⟩] =
        assign_speakersNaive [⟨0, 2, "hi".toList⟩, ⟨5, 7, "bye".toList⟩]
          [⟨0, 2, "A".toList⟩, ⟨5, 7, "B".toList⟩] :=
  ⟨by decide, by decide,
    C2_cursor_refines_naive _ _ (by decide) (by decide)⟩

/-- Claim C3: assign_speakers is length- and order-preserving, producing one
assigned segment per input segment with the same start and end times. -/
theorem C3_assign_length_order (segs : List Seg) (turns : List Turn) :
    (assign_speakers segs turns).length = segs.length ∧
      (assign_speakers segs turns).map (fun a => (a.start, a.stop)) =
        segs.map fun s => (s.start, s.stop) :=
  ⟨assignGo_length segs turns, assignGo_pairs segs turns⟩

/-- Claim C7: empty inputs are not errors: zero segments give an empty output
for assignment, an empty assigned list gives an empty merge output, and zero
turns still give a well-defined output of the same length as the segments. -/
theorem C7_empty_inputs (g : ℚ) (turns : List Turn) (segs : List Seg) :
    assign_speakers [] turns = [] ∧ merge_consecutive [] g = [] ∧
      (assign_speakers segs []).length = segs.length :=
  ⟨rfl, rfl, assignGo_length segs []⟩

/-- Claim C10: whenever the turn selected by the maximal-overlap rule (the
first turn attaining the nonzero maximal overlap) carries the empty string as
its speaker label, assign_speakers reports the sentinel UNKNOWN for that
segment, exactly as when no turn overlaps at all. -/
theorem C10_empty_label_unknown (segs : List Seg) (turns : List Turn)
    (hs : segs.Pairwise fun a b => a.start ≤ b.start)
    (ht : turns.Pairwise fun a b => a.start ≤ b.start)
    (i : ℕ) (hi : i < segs.length) (t : Turn)
    (hmax : 0 < maxOverlap segs[i].start segs[i].stop turns)
    (hfind : turns.find?
        (fun u => decide (ovl segs[i].start segs[i].stop u =
          maxOverlap segs[i].start segs[i].stop turns)) = some t)
    (hempty : t.speaker = []) :
    ((assign_speakers segs turns).map fun a => a.speaker)[i]? =
      some "UNKNOWN".toList := by
  rw [speakers_eq_select segs turns hs ht, List.getElem?_map,
    List.getElem?_eq_getElem hi]
  simp [selectSpeaker, hmax, hfind, hempty]

/-- Claim C10, witness: one segment, one fully overlapping empty-labelled
turn; the assigned speaker is UNKNOWN. -/
theorem C10_empty_label_unknown_witness :
    ((assign_speakers [⟨0, 1, "hi".toList⟩] [⟨0, 1, []⟩]).map
        fun a => a.speaker)[0]? = some "UNKNOWN".toList :=
  C10_empty_label_unknown [⟨0, 1, "hi".toList⟩] [⟨0, 1, []⟩]
    (by decide) (by decide) 0 (by decide) ⟨0, 1, []⟩
    (by norm_num [maxOverlap, ovl, overlap])
    (by
      rw [List.find?_cons_of_pos]
      rw [decide_eq_true_eq]
      norm_num [maxOverlap, ovl, overlap])
    rfl

/-! Facts about pyStrip and the merge loop. -/

lemma dropWhile_head_false {p : Char → Bool} {c : Char} {cs : PyStr}
    (h : (c :: cs).dropWhile p = c :: cs) : p c = false := by
  cases hpc : p c with
  | false => rfl
  | true =>
      exfalso
      rw [List.dropWhile_cons_of_pos hpc] at h
      have hlen : (cs.dropWhile p).length ≤ cs.length :=
        (List.dropWhile_sublist _).length_le
      rw [h] at hlen
      simp at hlen

lemma pyStrip_drop_left (s : PyStr) (h : pyStrip s = s) :
    s.dropWhile isSpace = s := by
  have h1 : (s.dropWhile isSpace).length ≤ s.length :=
    (List.dropWhile_sublist _).length_le
  have h2 : (pyStrip s).length ≤ (s.dropWhile isSpace).length := by
    rw [pyStrip, List.length_reverse]
    calc ((s.dropWhile isSpace).reverse.dropWhile isSpace).length
        ≤ (s.dropWhile isSpace).reverse.length := (List.dropWhile_sublist _).length_le
      _ = (s.dropWhile isSpace).length := List.length_reverse _
  rw [h] at h2
  exact (List.dropWhile_sublist _).eq_of_length (le_antisymm h1 h2)

lemma pyStrip_drop_right (s : PyStr) (h : pyStrip s = s) :
    s.reverse.dropWhile isSpace = s.reverse := by
  have h0 := pyStrip_drop_left s h
  have h1 := congrArg List.reverse h
  rw [pyStrip, List.reverse_reverse, h0] at h1
  exact h1

lemma pyStrip_sandwich (s t : PyStr) (hs : s ≠ []) (ht : t ≠ [])
    (hs2 : pyStrip s = s) (ht2 : pyStrip t = t) :
    pyStrip (s ++ ' ' :: t) = s ++ ' ' :: t := by
  obtain ⟨c, cs, rfl⟩ := List.exists_cons_of_ne_nil hs
  have hc : isSpace c = false :=
    dropWhile_head_false (pyStrip_drop_left _ hs2)
  obtain ⟨d, ds, hd⟩ := List.exists_cons_of_ne_nil
    (show t.reverse ≠ [] by simpa using ht)
  have hdf : isSpace d = false := by
    have h1 := pyStrip_drop_right t ht2
    rw [hd] at h1
    exact dropWhile_head_false h1
  rw [pyStrip]
  rw [List.cons_append, List.dropWhile_cons_of_neg (by rw [hc]; simp)]
  rw [show (c :: (cs ++ ' ' :: t)).reverse = t.reverse ++ (' ' :: (c :: cs).reverse) by
    simp]
  rw [hd, List.cons_append, List.dropWhile_cons_of_neg (by rw [hdf]; simp)]
  rw [← List.cons_append, ← hd]
  simp

lemma mergeGo_ne_nil (g : ℚ) : ∀ (rest : List ASeg) (last : ASeg),
    mergeGo g last rest ≠ []
  | [], last => by simp [mergeGo]
  | seg :: rest, last => by
      rw [mergeGo]
      split
      · exact mergeGo_ne_nil g rest _
      · simp

lemma sjoin_cons (x : PyStr) (l : List PyStr) (hl : l ≠ []) :
    sjoin (x :: l) = x ++ ' ' :: sjoin l := by
  obtain ⟨y, ys, rfl⟩ := List.exists_cons_of_ne_nil hl
  rfl

lemma sjoin_cons₂ (x y : PyStr) (l : List PyStr) :
    sjoin (x :: y :: l) = x ++ ' ' :: sjoin (y :: l) := rfl

lemma sjoin_glue (a b : PyStr) (l : List PyStr) :
    sjoin ((a ++ ' ' :: b) :: l) = a ++ ' ' :: sjoin (b :: l) := by
  cases l with
  | nil => rfl
  | cons x xs => rw [sjoin_cons₂, sjoin_cons₂]; simp [sjoin_cons₂]

lemma mergeGo_text (g : ℚ) : ∀ (rest : List ASeg) (last : ASeg),
    last.text ≠ [] → pyStrip last.text = last.text →
    (∀ a ∈ rest, a.text ≠ [] ∧ pyStrip a.text = a.text) →
    sjoin ((mergeGo g last rest).map fun a => a.text) =
      sjoin (last.text :: rest.map fun a => a.text)
  | [], last, _, _, _ => rfl
  | seg :: rest, last, hne, hstrip, hrest => by
      have hseg := hrest seg (List.mem_cons_self seg rest)
      have hrest' : ∀ a ∈ rest, a.text ≠ [] ∧ pyStrip a.text = a.text :=
        fun a ha => hrest a (List.mem_cons_of_mem seg ha)
      rw [mergeGo]
      split
      · have hglue : pyStrip (last.text ++ ' ' :: seg.text) =
            last.text ++ ' ' :: seg.text :=
          pyStrip_sandwich _ _ hne hseg.1 hstrip hseg.2
        rw [mergeGo_text g rest
          { last with stop := seg.stop, text := pyStrip (last.text ++ ' ' :: seg.text) }
          (by simp [hglue]) (by simp [hglue]) hrest']
        simp only [hglue]
        rw [List.map_cons, sjoin_glue, sjoin_cons₂]
      · rw [List.map_cons,
          sjoin_cons _ _ (fun hnil => mergeGo_ne_nil g rest seg (List.map_eq_nil_iff.mp hnil)),
          mergeGo_text g rest seg hseg.1 hseg.2 hrest', List.map_cons, sjoin_cons₂]

lemma mergeGo_length (g : ℚ) : ∀ (rest : List ASeg) (last : ASeg),
    (mergeGo g last rest).length ≤ rest.length + 1
  | [], last => le_rfl
  | seg :: rest, last => by
      rw [mergeGo]
      split
      · exact le_trans (mergeGo_length g rest _) (by simp)
      · simpa using mergeGo_length g rest seg

/-- Claim C4, counterexample: an assigned segment whose text is empty (as
assign_speakers produces when a transcript text strips to nothing) merges
with its successor, and the final strip of the joined text drops the space
that the space-joined concatenation of the inputs keeps, so the invariant
fails as universally stated. -/
theorem C4_counterexample :
    sjoin ((merge_consecutive
        [⟨0, 1, "A".toList, []⟩, ⟨1, 2, "A".toList, "b".toList⟩] (1 / 2)).map
        fun a => a.text) ≠
      sjoin (([⟨0, 1, "A".toList, []⟩, ⟨1, 2, "A".toList, "b".toList⟩] :
        List ASeg).map fun a => a.text) := by
  have h : (merge_consecutive
      [⟨0, 1, "A".toList, []⟩, ⟨1, 2, "A".toList, "b".toList⟩] (1 / 2)).map
      (fun a => a.text) = [['b']] := by
    norm_num [merge_consecutive, mergeGo]
    decide
  rw [h]
  decide

/-- Claim C4 as amended: provided every input text is nonempty and free of
leading and trailing whitespace (as the texts produced by assign_speakers
are, having been stripped), merge_consecutive preserves the space-joined
concatenation of the texts in order, and never lengthens the list. -/
theorem C4_merge_preserves_text (assigned : List ASeg) (g : ℚ)
    (h : ∀ a ∈ assigned, a.text ≠ [] ∧ pyStrip a.text = a.text) :
    sjoin ((merge_consecutive assigned g).map fun a => a.text) =
        sjoin (assigned.map fun a => a.text) ∧
      (merge_consecutive assigned g).length ≤ assigned.length := by
  cases assigned with
  | nil => exact ⟨rfl, le_rfl⟩
  | cons a rest =>
      have ha := h a (List.mem_cons_self a rest)
      refine ⟨?_, ?_⟩
      · rw [merge_consecutive, List.map_cons,
          mergeGo_text g rest a ha.1 ha.2
            (fun u hu => h u (List.mem_cons_of_mem a hu))]
      · rw [merge_consecutive]
        simpa using mergeGo_length g rest a

/-- Claim C4, witness at a concrete input with clean texts. -/
theorem C4_merge_preserves_text_witness :
    (∀ a ∈ ([⟨0, 2, "A".toList, "hi".toList⟩, ⟨2, 4, "A".toList, "there".toList⟩] :
        List ASeg), a.text ≠ [] ∧ pyStrip a.text = a.text) ∧
      (sjoin ((merge_consecutive
          [⟨0, 2, "A".toList, "hi".toList⟩, ⟨2, 4, "A".toList, "there".toList⟩]
          (1 / 2)).map fun a => a.text) =
        sjoin (([⟨0, 2, "A".toList, "hi".toList⟩,
          ⟨2, 4, "A".toList, "there".toList⟩] : List ASeg).map fun a => a.text) ∧
      (merge_consecutive
          [⟨0, 2, "A".toList, "hi".toList⟩, ⟨2, 4, "A".toList, "there".toList⟩]
          (1 / 2)).length ≤ 2) :=
  ⟨by decide, C4_merge_preserves_text _ _ (by decide)⟩

/-! The identity remapping layer. -/

/-- Per-label replacement performed by apply_speaker_map: the new label when
the map has a non-empty entry, otherwise the original label. -/
def speakerStep (mapping : List (PyStr × PyStr)) (s : PyStr) : PyStr :=
  if (pyGet mapping s).getD s = [] then s else (pyGet mapping s).getD s

lemma apply_speaker_map_eq_map (merged : List ASeg) (mapping : List (PyStr × PyStr)) :
    apply_speaker_map merged mapping =
      merged.map fun seg => { seg with speaker := speakerStep mapping seg.speaker } := rfl

/-- Claim C5: apply_speaker_map keeps every segment's times and text, replaces
the speaker with the mapped display name exactly when the map has a non-empty
entry for it, and passes absent and empty-valued labels through unchanged.
Purity holds by construction in this embedding: the result is a new list and
neither the input segments nor the map are modified. -/
theorem C5_apply_map (merged : List ASeg) (mapping : List (PyStr × PyStr))
    (i : ℕ) (seg : ASeg) (hseg : merged[i]? = some seg) :
    ∃ out, (apply_speaker_map merged mapping)[i]? = some out ∧
      out.start = seg.start ∧ out.stop = seg.stop ∧ out.text = seg.text ∧
      (∀ v, pyGet mapping seg.speaker = some v → v ≠ [] → out.speaker = v) ∧
      (pyGet mapping seg.speaker = none → out.speaker = seg.speaker) ∧
      (pyGet mapping seg.speaker = some [] → out.speaker = seg.speaker) := by
  refine ⟨{ seg with speaker := speakerStep mapping seg.speaker }, ?_, rfl, rfl, rfl,
    ?_, ?_, ?_⟩
  · rw [apply_speaker_map_eq_map, List.getElem?_map, hseg, Option.map_some']
  · intro v hv hvne
    simp [speakerStep, hv, hvne]
  · intro hv
    simp [speakerStep, hv]
  · intro hv
    simp [speakerStep, hv]

/-- Claim C5, witness at a concrete input exercising the present-and-nonempty
lookup case of scenario 5 of the spec. -/
theorem C5_apply_map_witness :
    ([⟨0, 1, "SPEAKER_00".toList, "x".toList⟩] : List ASeg)[0]? =
        some ⟨0, 1, "SPEAKER_00".toList, "x".toList⟩ ∧
      ∃ out, (apply_speaker_map [⟨0, 1, "SPEAKER_00".toList, "x".toList⟩]
          [("SPEAKER_00".toList, "Akshay".toList)])[0]? = some out ∧
        out.start = 0 ∧ out.stop = 1 ∧ out.text = "x".toList ∧
        (∀ v, pyGet [("SPEAKER_00".toList, "Akshay".toList)] "SPEAKER_00".toList =
            some v → v ≠ [] → out.speaker = v) ∧
        (pyGet [("SPEAKER_00".toList, "Akshay".toList)] "SPEAKER_00".toList = none →
          out.speaker = "SPEAKER_00".toList) ∧
        (pyGet [("SPEAKER_00".toList, "Akshay".toList)] "SPEAKER_00".toList = some [] →
          out.speaker = "SPEAKER_00".toList) :=
  ⟨rfl, C5_apply_map _ _ 0 ⟨0, 1, "SPEAKER_00".toList, "x".toList⟩ rfl⟩

lemma speakerStep_idem (mapping : List (PyStr × PyStr))
    (H : ∀ k v, pyGet mapping k = some v → v ≠ [] →
      pyGet mapping v = none ∨ pyGet mapping v = some [] ∨ pyGet mapping v = some v)
    (s : PyStr) :
    speakerStep mapping (speakerStep mapping s) = speakerStep mapping s := by
  cases hget : pyGet mapping s with
  | none => simp [speakerStep, hget]
  | some v =>
      by_cases hv : v = []
      · subst hv
        simp [speakerStep, hget]
      · have hs : speakerStep mapping s = v := by simp [speakerStep, hget, hv]
        rw [hs]
        rcases H s v hget hv with h | h | h
        · simp [speakerStep, h]
        · simp [speakerStep, h]
        · simp [speakerStep, h, hv]

/-- Claim C6, counterexample: with the map A to B, B to C, a segment labelled
A becomes B after one application and C after two, so apply_speaker_map is
not idempotent for every map. -/
theorem C6_counterexample :
    (apply_speaker_map
        (apply_speaker_map [⟨0, 1, "A".toList, "x".toList⟩]
          [("A".toList, "B".toList), ("B".toList, "C".toList)])
        [("A".toList, "B".toList), ("B".toList, "C".toList)]).map
        (fun a => a.speaker) = ["C".toList] ∧
      (apply_speaker_map [⟨0, 1, "A".toList, "x".toList⟩]
          [("A".toList, "B".toList), ("B".toList, "C".toList)]).map
        (fun a => a.speaker) = ["B".toList] ∧
      ("C".toList : PyStr) ≠ "B".toList := by
  refine ⟨by decide, by decide, by decide⟩

/-- Claim C6 as amended: apply_speaker_map is idempotent whenever no
non-empty replacement value is itself mapped to a different non-empty value
(in particular whenever the display names are not themselves raw labels of
the map, which is how the generated label-keyed map is used); the second pass
then leaves every already-replaced name unchanged. -/
theorem C6_apply_map_idempotent (merged : List ASeg) (mapping : List (PyStr × PyStr))
    (H : ∀ k v, pyGet mapping k = some v → v ≠ [] →
      pyGet mapping v = none ∨ pyGet mapping v = some [] ∨ pyGet mapping v = some v) :
    apply_speaker_map (apply_speaker_map merged mapping) mapping =
      apply_speaker_map merged mapping := by
  induction merged with
  | nil => rfl
  | cons seg rest ih =>
      simp only [apply_speaker_map_eq_map, List.map_cons] at ih ⊢
      refine congrArg₂ _ ?_ ih
      have h := speakerStep_idem mapping H seg.speaker
      simp [h]

/-- Claim C6, witness at a concrete input whose display names are not keys. -/
theorem C6_apply_map_idempotent_witness :
    (∀ k v, pyGet [("A".toList, "B".toList)] k = some v → v ≠ [] →
        pyGet [("A".toList, "B".toList)] v = none ∨
        pyGet [("A".toList, "B".toList)] v = some [] ∨
        pyGet [("A".toList, "B".toList)] v = some v) ∧
      apply_speaker_map
          (apply_speaker_map [⟨0, 1, "A".toList, "x".toList⟩] [("A".toList, "B".toList)])
          [("A".toList, "B".toList)] =
        apply_speaker_map [⟨0, 1, "A".toList, "x".toList⟩] [("A".toList, "B".toList)] := by
  have H : ∀ k v, pyGet [("A".toList, "B".toList)] k = some v → v ≠ [] →
      pyGet [("A".toList, "B".toList)] v = none ∨
      pyGet [("A".toList, "B".toList)] v = some [] ∨
      pyGet [("A".toList, "B".toList)] v = some v := by
    intro k v hkv _
    by_cases hk : "A".toList = k
    · rw [pyGet, if_pos hk] at hkv
      have hv : v = "B".toList := by
        cases hkv
        rfl
      subst hv
      left
      decide
    · rw [pyGet, if_neg hk] at hkv
      cases hkv
  exact ⟨H, C6_apply_map_idempotent _ _ H⟩

/-! Malformed raw inputs. -/

lemma except_bind_ok {α β : Type} (a : α) (f : α → Except PyStr β) :
    (Except.ok a : Except PyStr α) >>= f = f a := rfl

lemma except_bind_error {α β : Type} (e : PyStr) (f : α → Except PyStr β) :
    (Except.error e : Except PyStr α) >>= f = Except.error e := rfl

lemma assignRawGo_error : ∀ (segs : List RawSeg) (turns : List RawTurn),
    (∃ seg ∈ segs, seg.start = none ∨ seg.stop = none ∨ seg.text = none) →
    ∃ e, assignRawGo segs turns = Except.error e
  | [], _, hex => absurd hex (by simp)
  | seg :: rest, turns, hex => by
      cases hws : seg.start with
      | none =>
          exact ⟨"KeyError".toList, by
            simp [assignRawGo, hws, getKey, except_bind_error]⟩
      | some ws =>
          cases hwe : seg.stop with
          | none =>
              exact ⟨"KeyError".toList, by
                simp [assignRawGo, hws, hwe, getKey, except_bind_ok, except_bind_error]⟩
          | some we =>
              cases hadv : advanceRaw ws turns with
              | error e =>
                  exact ⟨e, by
                    simp [assignRawGo, hws, hwe, hadv, getKey,
                      except_bind_ok, except_bind_error]⟩
              | ok turns2 =>
                  cases hscan : scanRaw ws we turns2 (none, 0) with
                  | error e =>
                      exact ⟨e, by
                        simp [assignRawGo, hws, hwe, hadv, hscan, getKey,
                          except_bind_ok, except_bind_error]⟩
                  | ok best =>
                      cases htxt : seg.text with
                      | none =>
                          exact ⟨"KeyError".toList, by
                            simp [assignRawGo, hws, hwe, hadv, hscan, htxt, getKey,
                              except_bind_ok, except_bind_error]⟩
                      | some txt =>
                          have hex2 : ∃ s ∈ rest,
                              s.start = none ∨ s.stop = none ∨ s.text = none := by
                            rcases hex with ⟨s, hmem, hP⟩
                            rcases List.mem_cons.mp hmem with rfl | hmem2
                            · rw [hws, hwe, htxt] at hP
                              rcases hP with h | h | h <;> cases h
                            · exact ⟨s, hmem2, hP⟩
                          obtain ⟨e, herr⟩ := assignRawGo_error rest turns2 hex2
                          exact ⟨e, by
                            simp [assignRawGo, hws, hwe, hadv, hscan, htxt, herr, getKey,
                              except_bind_ok, except_bind_error]⟩

/-- Claim C8, counterexample: a segment with end before start (start 5, end
3) is accepted silently; the engine produces an assigned segment instead of
failing fast, refuting the claim as stated. -/
theorem C8_counterexample :
    ((3 : ℚ) < 5) ∧
      assign_speakersRaw [⟨some 5, some 3, some "x".toList⟩] [] =
        Except.ok [⟨5, 3, "UNKNOWN".toList, "x".toList⟩] :=
  ⟨by norm_num, rfl⟩

/-- Claim C8 as amended: a segment missing any of its required keys start,
end, text makes the engine fail fast with a KeyError; but end before start is
never validated (the engine silently produces output for it, as the
counterexample shows), and a turn's keys are only read if the scan reaches
that turn. -/
theorem C8_missing_field_fails (segs : List RawSeg) (turns : List RawTurn)
    (hex : ∃ seg ∈ segs, seg.start = none ∨ seg.stop = none ∨ seg.text = none) :
    ∃ e, assign_speakersRaw segs turns = Except.error e :=
  assignRawGo_error segs turns hex

/-- Claim C8, witness: a segment lacking its text key fails. -/
theorem C8_missing_field_fails_witness :
    ∃ e, assign_speakersRaw [⟨some 0, some 1, (none : Option PyStr)⟩] [] =
      Except.error e :=
  C8_missing_field_fails [⟨some 0, some 1, none⟩] []
    ⟨⟨some 0, some 1, none⟩, List.mem_cons_self _ _, Or.inr (Or.inr rfl)⟩

/-! The renderer: clock strings and stripping of rendered lines. -/

lemma digitChar_ne_colon (d : ℕ) : digitChar d ≠ ':' := by
  unfold digitChar
  split_ifs <;> decide

lemma natCharsAux_ne_colon : ∀ (fuel n : ℕ), ∀ c ∈ natCharsAux fuel n, c ≠ ':'
  | 0, _ => by simp [natCharsAux]
  | fuel + 1, n => by
      intro c hc
      rw [natCharsAux] at hc
      by_cases h10 : n < 10
      · rw [if_pos h10] at hc
        rcases List.mem_singleton.mp hc with rfl
        exact digitChar_ne_colon n
      · rw [if_neg h10] at hc
        rcases List.mem_append.mp hc with h | h
        · exact natCharsAux_ne_colon fuel (n / 10) c h
        · rcases List.mem_singleton.mp h with rfl
          exact digitChar_ne_colon (n % 10)

lemma natChars_ne_colon (n : ℕ) : ∀ c ∈ natChars n, c ≠ ':' :=
  natCharsAux_ne_colon (n + 1) n

lemma pad2_ne_colon (n : ℕ) : ∀ c ∈ pad2 n, c ≠ ':' := by
  intro c hc
  rw [pad2] at hc
  by_cases h10 : n < 10
  · rw [if_pos h10] at hc
    rcases List.mem_cons.mp hc with rfl | h
    · decide
    · exact natChars_ne_colon n c h
  · rw [if_neg h10] at hc
    exact natChars_ne_colon n c hc

lemma splitColon_no_colon (l : PyStr) (h : ∀ c ∈ l, c ≠ ':') :
    splitColon l = [l] := by
  induction l with
  | nil => rfl
  | cons c cs ih =>
      rw [splitColon, if_neg (h c (List.mem_cons_self c cs)),
        ih fun d hd => h d (List.mem_cons_of_mem c hd)]

lemma splitColon_append_colon (A B : PyStr) (hA : ∀ c ∈ A, c ≠ ':') :
    splitColon (A ++ ':' :: B) = A :: splitColon B := by
  induction A with
  | nil => simp [splitColon]
  | cons a A ih =>
      rw [List.cons_append, splitColon,
        if_neg (hA a (List.mem_cons_self a A)),
        ih fun d hd => hA d (List.mem_cons_of_mem a hd)]

lemma pyRound_intCast (z : ℤ) : pyRound (z : ℚ) = z := by
  rw [pyRound]
  simp only [Rat.num_intCast, Rat.den_intCast, Nat.cast_one, Int.fdiv_one, sub_self]
  norm_num

lemma tdString_small (n : ℤ) (h0 : 0 ≤ n) (h1 : n < 86400) :
    tdString n = natChars (n.toNat / 60 / 60) ++ ':' ::
      pad2 (n.toNat / 60 % 60) ++ ':' :: pad2 (n.toNat % 60) := by
  have hdays : n.fdiv 86400 = 0 := by
    rw [Int.fdiv_eq_ediv _ (by norm_num)]
    exact Int.ediv_eq_zero_of_lt h0 h1
  rw [tdString]
  simp only [hdays, mul_zero, sub_zero, eq_self_iff_true, if_true]

lemma hms_small (q : ℚ) (h0 : 0 ≤ pyRound q) (h1 : pyRound q < 86400) :
    hms q = clockChars q := by
  have hbase := tdString_small (pyRound q) h0 h1
  have hsplit : splitColon (tdString (pyRound q)) =
      [natChars ((pyRound q).toNat / 60 / 60),
        pad2 ((pyRound q).toNat / 60 % 60), pad2 ((pyRound q).toNat % 60)] := by
    rw [hbase]
    simp only [List.cons_append, List.append_assoc]
    rw [splitColon_append_colon _ _ (natChars_ne_colon _),
      splitColon_append_colon _ _ (pad2_ne_colon _),
      splitColon_no_colon _ (pad2_ne_colon _)]
  rw [hms, hsplit]
  norm_num
  rw [hbase]
  simp only [clockChars]
  have e1 : (pyRound q).toNat / 60 / 60 = (pyRound q).toNat / 3600 := by omega
  have e2 : (pyRound q).toNat / 60 % 60 = (pyRound q).toNat % 3600 / 60 := by omega
  rw [e1, e2]

lemma reverse_dropWhile_self (l : PyStr) (hne : l ≠ [])
    (hl : ∀ c, l.getLast? = some c → isSpace c = false) :
    l.reverse.dropWhile isSpace = l.reverse := by
  obtain ⟨d, ds, hd⟩ := List.exists_cons_of_ne_nil
    (show l.reverse ≠ [] by simpa using hne)
  have hdl : l.getLast? = some d := by
    rw [← List.head?_reverse, hd]
    rfl
  rw [hd, List.dropWhile_cons_of_neg (by rw [hl d hdl]; simp)]

lemma pyStrip_eq_self_of (l : PyStr) (hne : l ≠ [])
    (hh : ∀ c, l.head? = some c → isSpace c = false)
    (hl : ∀ c, l.getLast? = some c → isSpace c = false) :
    pyStrip l = l := by
  obtain ⟨c, cs, rfl⟩ := List.exists_cons_of_ne_nil hne
  rw [pyStrip, List.dropWhile_cons_of_neg (by rw [hh c rfl]; simp),
    reverse_dropWhile_self _ hne hl, List.reverse_reverse]

lemma pyStrip_space_cons (R : PyStr) (hne : R ≠ [])
    (hh : ∀ c, R.head? = some c → isSpace c = false)
    (hl : ∀ c, R.getLast? = some c → isSpace c = false) :
    pyStrip (' ' :: R) = R := by
  obtain ⟨c, cs, rfl⟩ := List.exists_cons_of_ne_nil hne
  rw [pyStrip, List.dropWhile_cons_of_pos (by decide),
    List.dropWhile_cons_of_neg (by rw [hh c rfl]; simp),
    reverse_dropWhile_self _ hne hl, List.reverse_reverse]

lemma render_line_true (seg : ASeg)
    (h0 : 0 ≤ pyRound seg.start) (h1 : pyRound seg.start < 86400)
    (htx : seg.text ≠ [])
    (htl : ∀ c, seg.text.getLast? = some c → isSpace c = false) :
    pyStrip (('[' :: hms seg.start ++ [']']) ++
        ' ' :: seg.speaker ++ ':' :: ' ' :: seg.text) ++ ['\n'] =
      specLine true seg := by
  have hshape : ('[' :: hms seg.start ++ [']']) ++
      ' ' :: seg.speaker ++ ':' :: ' ' :: seg.text =
      ('[' :: (hms seg.start ++ [']'] ++ ' ' :: seg.speaker ++ [':', ' '])) ++
        seg.text := by
    simp
  have hself : pyStrip (('[' :: (hms seg.start ++ [']'] ++ ' ' :: seg.speaker ++
      [':', ' '])) ++ seg.text) =
      ('[' :: (hms seg.start ++ [']'] ++ ' ' :: seg.speaker ++ [':', ' '])) ++
        seg.text := by
    refine pyStrip_eq_self_of _ (by simp) ?_ ?_
    · intro c hc
      rw [List.cons_append, List.head?_cons] at hc
      cases hc
      decide
    · intro c hc
      rw [List.getLast?_append_of_ne_nil _ htx] at hc
      exact htl c hc
  rw [hshape, hself, hms_small seg.start h0 h1]
  simp [specLine]

lemma render_line_false (seg : ASeg)
    (htx : seg.text ≠ [])
    (htl : ∀ c, seg.text.getLast? = some c → isSpace c = false)
    (hsp : ∀ c, seg.speaker.head? = some c → isSpace c = false) :
    pyStrip ([] ++ ' ' :: seg.speaker ++ ':' :: ' ' :: seg.text) ++ ['\n'] =
      specLine false seg := by
  have hR : pyStrip (' ' :: (seg.speaker ++ ':' :: ' ' :: seg.text)) =
      seg.speaker ++ ':' :: ' ' :: seg.text := by
    refine pyStrip_space_cons _ (by simp) ?_ ?_
    · intro c hc
      cases hspk : seg.speaker with
      | nil =>
          rw [hspk] at hc
          simp at hc
          subst hc
          decide
      | cons a as =>
          rw [hspk, List.cons_append, List.head?_cons] at hc
          cases hc
          exact hsp c (by rw [hspk]; rfl)
    · intro c hc
      rw [show seg.speaker ++ ':' :: ' ' :: seg.text =
          (seg.speaker ++ [':', ' ']) ++ seg.text by simp,
        List.getLast?_append_of_ne_nil _ htx] at hc
      exact htl c hc
  rw [List.nil_append,
    show (' ' :: seg.speaker) ++ ':' :: ' ' :: seg.text =
      ' ' :: (seg.speaker ++ ':' :: ' ' :: seg.text) by simp,
    hR]
  simp [specLine]

/-- Claim C9, counterexample: a segment starting at 86400 seconds renders as
one day, 0:00:00 in Python's timedelta notation, not as the claimed
H:MM:SS clock 24:00:00, so the claimed line format fails as universally
stated (the renderer also strips each line, dropping claimed whitespace for
empty texts). -/
theorem C9_counterexample :
    write_conversation [⟨86400, 86401, "A".toList, "hi".toList⟩] true =
        "[1 day, 0:00:00] A: hi\n".toList ∧
      write_conversation [⟨86400, 86401, "A".toList, "hi".toList⟩] true ≠
        (([⟨86400, 86401, "A".toList, "hi".toList⟩] : List ASeg).map
          (specLine true)).flatten := by
  have hf : (86400 : ℚ) = ((86400 : ℤ) : ℚ) := by norm_num
  have hr : pyRound (86400 : ℚ) = 86400 := by rw [hf, pyRound_intCast]
  constructor
  · simp only [write_conversation, List.map_cons, List.map_nil, hms, hr,
      List.flatten]
    decide
  · simp only [write_conversation, List.map_cons, List.map_nil, hms, hr,
      List.flatten, specLine, clockChars]
    decide

/-- Claim C9 as amended: for segments whose rounded start lies in the first
day, whose text is nonempty without trailing whitespace and whose speaker has
no leading whitespace, the written file has exactly one line per segment in
the claimed format - bracketed H:MM:SS clock (hours unpadded, minutes and
seconds zero-padded, start rounded to a whole second by Python's
half-to-even round), speaker, colon, space, text - joined by newlines with a
trailing newline; without timestamps the line is speaker, colon, space,
text. -/
theorem C9_render_format (merged : List ASeg) (b : Bool)
    (h : ∀ seg ∈ merged,
      0 ≤ pyRound seg.start ∧ pyRound seg.start < 86400 ∧
      seg.text ≠ [] ∧ (∀ c, seg.text.getLast? = some c → isSpace c = false) ∧
      (∀ c, seg.speaker.head? = some c → isSpace c = false)) :
    write_conversation merged b = (merged.map (specLine b)).flatten := by
  induction merged with
  | nil => rfl
  | cons seg rest ih =>
      obtain ⟨h0, h1, htx, htl, hsp⟩ := h seg (List.mem_cons_self seg rest)
      have ihr := ih fun s hs => h s (List.mem_cons_of_mem seg hs)
      rw [write_conversation] at ihr
      simp only [write_conversation, List.map_cons, List.flatten_cons]
      refine congrArg₂ (fun x y => x ++ y) ?_ ihr
      cases b with
      | true =>
          simpa using render_line_true seg h0 h1 htx htl
      | false =>
          simpa using render_line_false seg htx htl hsp

/-- Claim C9, witness: one segment starting at 3725 seconds renders with the
clock 1:02:05. -/
theorem C9_render_format_witness :
    (∀ seg ∈ ([⟨3725, 3730, "A".toList, "hi".toList⟩] : List ASeg),
        0 ≤ pyRound seg.start ∧ pyRound seg.start < 86400 ∧
        seg.text ≠ [] ∧ (∀ c, seg.text.getLast? = some c → isSpace c = false) ∧
        (∀ c, seg.speaker.head? = some c → isSpace c = false)) ∧
      write_conversation [⟨3725, 3730, "A".toList, "hi".toList⟩] true =
        (([⟨3725, 3730, "A".toList, "hi".toList⟩] : List ASeg).map
          (specLine true)).flatten := by
  have hr : pyRound (3725 : ℚ) = 3725 := by
    rw [show (3725 : ℚ) = ((3725 : ℤ) : ℚ) by norm_num, pyRound_intCast]
  have hyp : ∀ seg ∈ ([⟨3725, 3730, "A".toList, "hi".toList⟩] : List ASeg),
      0 ≤ pyRound seg.start ∧ pyRound seg.start < 86400 ∧
      seg.text ≠ [] ∧ (∀ c, seg.text.getLast? = some c → isSpace c = false) ∧
      (∀ c, seg.speaker.head? = some c → isSpace c = false) := by
    intro seg hseg
    rcases List.mem_singleton.mp hseg with rfl
    refine ⟨by rw [hr]; norm_num, by rw [hr]; norm_num, by decide, ?_, ?_⟩
    · intro c hc
      cases hc
      decide
    · intro c hc
      cases hc
      decide
  exact ⟨hyp, C9_render_format _ true hyp⟩
